import Mathlib

/-!
Verification of the illumination-refinement pipeline of this repository
(files `main.py` and `WLSLoss/wlsloss.py`).

Grids and weight maps are modelled as total functions `ℕ → ℕ → ℝ` together
with explicit dimensions; IEEE floating point is idealised as exact real
arithmetic.  The sparse matrix assembled by `refine_illumination_map_linear`
is modelled as a dense `Matrix (Fin (n*m)) (Fin (n*m)) ℝ` whose entry at
`(p, q)` is the sum of all coordinate-list contributions at `(p, q)`,
exactly as `scipy.sparse.csr_matrix` sums duplicate coordinates.
-/

open Real

/-- Embeds `get_sparse_neighbor(p, n, m)` from `main.py`: the association list
of `(key, (i, j, x))` entries of the returned dict, in insertion order, with
`i = p // m` and `j = p % m` inlined.  `key` is the flat index of a 4-neighbor
of `p` in the sparse matrix, `(i, j)` its coordinates in the `n × m` grid, and
`x` the direction flag (`0` vertical, `1` horizontal). -/
def get_sparse_neighbor (p n m : ℕ) : List (ℕ × ℕ × ℕ × ℕ) :=
  (if 1 ≤ p / m then [((p / m - 1) * m + p % m, (p / m - 1, p % m, 0))] else []) ++
    (if p / m + 1 < n then [((p / m + 1) * m + p % m, (p / m + 1, p % m, 0))] else []) ++
      (if 1 ≤ p % m then [(p / m * m + p % m - 1, (p / m, p % m - 1, 1))] else []) ++
        (if p % m + 1 < m then [(p / m * m + p % m + 1, (p / m, p % m + 1, 1))] else [])

lemma key_div (m a b : ℕ) (hb : b < m) : (a * m + b) / m = a := by
  have hm : 0 < m := by omega
  rw [mul_comm, Nat.mul_add_div hm, Nat.div_eq_of_lt hb]
  omega

lemma key_mod (m a b : ℕ) (hb : b < m) : (a * m + b) % m = b := by
  rw [mul_comm, Nat.mul_add_mod, Nat.mod_eq_of_lt hb]

lemma key_lt (n m a b : ℕ) (ha : a < n) (hb : b < m) : a * m + b < n * m :=
  calc a * m + b < a * m + m := by omega
    _ = (a + 1) * m := by ring
    _ ≤ n * m := Nat.mul_le_mul_right m (by omega)

lemma key_inj {m a b c d : ℕ} (hb : b < m) (hd : d < m) (h : a * m + b = c * m + d) :
    a = c ∧ b = d := by
  have h1 := key_div m a b hb
  have h2 := key_div m c d hd
  have h3 := key_mod m a b hb
  have h4 := key_mod m c d hd
  rw [h] at h1 h3
  rw [h2] at h1
  rw [h4] at h3
  exact ⟨h1.symm, h3.symm⟩

lemma div_lt_of_lt_mul {p n m : ℕ} (hp : p < n * m) : p / m < n := by
  by_contra h
  push_neg at h
  have h2 : n * m ≤ p / m * m := Nat.mul_le_mul_right m h
  have h3 : p / m * m ≤ p := Nat.div_mul_le_self p m
  omega

lemma cell_lt {n m i j : ℕ} (hj : j < m) (h : i * m + j < n * m) : i < n := by
  by_contra hcon
  push_neg at hcon
  have h2 : n * m ≤ i * m := Nat.mul_le_mul_right m hcon
  omega

/-- Evaluation of `get_sparse_neighbor` at a flat index given by explicit
coordinates `(i, j)` with `j < m`. -/
lemma gsn_eq (n m i j : ℕ) (hj : j < m) :
    get_sparse_neighbor (i * m + j) n m =
      (if 1 ≤ i then [((i - 1) * m + j, (i - 1, j, 0))] else []) ++
        (if i + 1 < n then [((i + 1) * m + j, (i + 1, j, 0))] else []) ++
          (if 1 ≤ j then [(i * m + j - 1, (i, j - 1, 1))] else []) ++
            (if j + 1 < m then [(i * m + j + 1, (i, j + 1, 1))] else []) := by
  unfold get_sparse_neighbor
  rw [key_div m i j hj, key_mod m i j hj]

lemma mem_gsn_ij (n m i j : ℕ) (hj : j < m) (e : ℕ × ℕ × ℕ × ℕ) :
    e ∈ get_sparse_neighbor (i * m + j) n m ↔
      (1 ≤ i ∧ e = ((i - 1) * m + j, (i - 1, j, 0))) ∨
        (i + 1 < n ∧ e = ((i + 1) * m + j, (i + 1, j, 0))) ∨
          (1 ≤ j ∧ e = (i * m + j - 1, (i, j - 1, 1))) ∨
            (j + 1 < m ∧ e = (i * m + j + 1, (i, j + 1, 1))) := by
  rw [gsn_eq n m i j hj]
  split_ifs <;>
    simp only [List.mem_append, List.mem_singleton, List.not_mem_nil,
      List.append_nil, List.nil_append, or_false, false_or] <;>
    tauto

/-- Structural facts about each entry of `get_sparse_neighbor` at the cell
`(i, j)`: the key is a valid flat index distinct from the center, the stored
coordinates are in range and are exactly the coordinates of the key, the
direction flag is `0` or `1`, and each flag value pins down the neighbor
geometry (same row and adjacent column for `1`, same column and adjacent row
for `0`). -/
lemma gsn_case_facts {n m i j : ℕ} (hi : i < n) (hj : j < m) (e : ℕ × ℕ × ℕ × ℕ)
    (he : e ∈ get_sparse_neighbor (i * m + j) n m) :
    e.1 < n * m ∧ e.1 ≠ i * m + j ∧ e.2.1 < n ∧ e.2.2.1 < m ∧
      e.2.1 = e.1 / m ∧ e.2.2.1 = e.1 % m ∧
      (e.2.2.2 = 0 ∨ e.2.2.2 = 1) ∧
      (e.2.2.2 = 1 → e.1 / m = i ∧
        (1 ≤ j ∧ e.1 % m = j - 1 ∨ j + 1 < m ∧ e.1 % m = j + 1)) ∧
      (e.2.2.2 = 0 → e.1 % m = j ∧
        (1 ≤ i ∧ e.1 / m = i - 1 ∨ i + 1 < n ∧ e.1 / m = i + 1)) := by
  rw [mem_gsn_ij n m i j hj] at he
  rcases he with ⟨hc, rfl⟩ | ⟨hc, rfl⟩ | ⟨hc, rfl⟩ | ⟨hc, rfl⟩
  · have hd := key_div m (i - 1) j hj
    have hmo := key_mod m (i - 1) j hj
    have hlt := key_lt n m (i - 1) j (by omega) hj
    have hne : (i - 1) * m + j ≠ i * m + j := fun h => by
      obtain ⟨h1, -⟩ := key_inj hj hj h
      omega
    exact ⟨hlt, hne, show i - 1 < n by omega, hj, hd.symm, hmo.symm, Or.inl rfl,
      fun h => by simp at h, fun _ => ⟨hmo, Or.inl ⟨hc, hd⟩⟩⟩
  · have hd := key_div m (i + 1) j hj
    have hmo := key_mod m (i + 1) j hj
    have hlt := key_lt n m (i + 1) j hc hj
    have hne : (i + 1) * m + j ≠ i * m + j := fun h => by
      obtain ⟨h1, -⟩ := key_inj hj hj h
      omega
    exact ⟨hlt, hne, hc, hj, hd.symm, hmo.symm, Or.inl rfl,
      fun h => by simp at h, fun _ => ⟨hmo, Or.inr ⟨hc, hd⟩⟩⟩
  · have hkey : i * m + j - 1 = i * m + (j - 1) := by omega
    have hb : j - 1 < m := by omega
    have hd : (i * m + j - 1) / m = i := by rw [hkey]; exact key_div m i (j - 1) hb
    have hmo : (i * m + j - 1) % m = j - 1 := by rw [hkey]; exact key_mod m i (j - 1) hb
    have hlt : i * m + j - 1 < n * m := by rw [hkey]; exact key_lt n m i (j - 1) hi hb
    exact ⟨hlt, by omega, hi, hb, hd.symm, hmo.symm, Or.inr rfl,
      fun _ => ⟨hd, Or.inl ⟨hc, hmo⟩⟩, fun h => by simp at h⟩
  · have hkey : i * m + j + 1 = i * m + (j + 1) := by omega
    have hd : (i * m + j + 1) / m = i := by rw [hkey]; exact key_div m i (j + 1) hc
    have hmo : (i * m + j + 1) % m = j + 1 := by rw [hkey]; exact key_mod m i (j + 1) hc
    have hlt : i * m + j + 1 < n * m := by rw [hkey]; exact key_lt n m i (j + 1) hi hc
    exact ⟨hlt, by omega, hi, hc, hd.symm, hmo.symm, Or.inr rfl,
      fun _ => ⟨hd, Or.inr ⟨hc, hmo⟩⟩, fun h => by simp at h⟩

lemma key_mem_gsn_ij (n m i j q : ℕ) (hj : j < m) :
    q ∈ (get_sparse_neighbor (i * m + j) n m).map Prod.fst ↔
      (1 ≤ i ∧ q = (i - 1) * m + j) ∨ (i + 1 < n ∧ q = (i + 1) * m + j) ∨
        (1 ≤ j ∧ q = i * m + j - 1) ∨ (j + 1 < m ∧ q = i * m + j + 1) := by
  simp only [List.mem_map, mem_gsn_ij n m i j hj]
  constructor
  · rintro ⟨e, (⟨hc, rfl⟩ | ⟨hc, rfl⟩ | ⟨hc, rfl⟩ | ⟨hc, rfl⟩), rfl⟩
    · exact Or.inl ⟨hc, rfl⟩
    · exact Or.inr (Or.inl ⟨hc, rfl⟩)
    · exact Or.inr (Or.inr (Or.inl ⟨hc, rfl⟩))
    · exact Or.inr (Or.inr (Or.inr ⟨hc, rfl⟩))
  · rintro (⟨hc, rfl⟩ | ⟨hc, rfl⟩ | ⟨hc, rfl⟩ | ⟨hc, rfl⟩)
    · exact ⟨_, Or.inl ⟨hc, rfl⟩, rfl⟩
    · exact ⟨_, Or.inr (Or.inl ⟨hc, rfl⟩), rfl⟩
    · exact ⟨_, Or.inr (Or.inr (Or.inl ⟨hc, rfl⟩)), rfl⟩
    · exact ⟨_, Or.inr (Or.inr (Or.inr ⟨hc, rfl⟩)), rfl⟩

/-- Symmetry of the neighbor relation on valid flat indices. -/
lemma gsn_symm {n m p q : ℕ} (hp : p < n * m) (hq : q < n * m) :
    q ∈ (get_sparse_neighbor p n m).map Prod.fst →
      p ∈ (get_sparse_neighbor q n m).map Prod.fst := by
  have hm : 0 < m := Nat.pos_of_ne_zero fun h => by subst h; simp at hp
  obtain ⟨i, j, hj, rfl⟩ : ∃ i j, j < m ∧ p = i * m + j :=
    ⟨p / m, p % m, Nat.mod_lt _ hm, by rw [mul_comm]; exact (Nat.div_add_mod p m).symm⟩
  have hi : i < n := cell_lt hj hp
  rw [key_mem_gsn_ij n m i j q hj]
  rintro (⟨hc, rfl⟩ | ⟨hc, rfl⟩ | ⟨hc, rfl⟩ | ⟨hc, rfl⟩)
  · refine (key_mem_gsn_ij n m (i - 1) j _ hj).mpr (Or.inr (Or.inl ⟨by omega, ?_⟩))
    rw [show i - 1 + 1 = i by omega]
  · refine (key_mem_gsn_ij n m (i + 1) j _ hj).mpr (Or.inl ⟨by omega, ?_⟩)
    rw [show i + 1 - 1 = i by omega]
  · have hkey : i * m + j - 1 = i * m + (j - 1) := by omega
    have hb : j - 1 < m := by omega
    rw [hkey]
    exact (key_mem_gsn_ij n m i (j - 1) _ hb).mpr
      (Or.inr (Or.inr (Or.inr ⟨by omega, by omega⟩)))
  · have hkey : i * m + j + 1 = i * m + (j + 1) := by omega
    rw [hkey]
    exact (key_mem_gsn_ij n m i (j + 1) _ hc).mpr
      (Or.inr (Or.inr (Or.inl ⟨by omega, by omega⟩)))

/-- Claim C10: every key `q` of `get_sparse_neighbor(p, n, m)` is a valid flat
index distinct from `p`, its stored coordinates are the grid coordinates of
`q`, the key denotes a cell at Manhattan distance exactly one from the cell of
`p`, the direction flag is `1` exactly when the columns differ and `0` exactly
when the rows differ, at most four neighbors are returned, and the neighbor
relation is symmetric on valid flat indices. -/
theorem claim10_sparse_neighbor_invariants (n m p : ℕ) (hn : 1 ≤ n) (hm : 1 ≤ m)
    (hp : p < n * m) :
    (∀ e ∈ get_sparse_neighbor p n m,
      e.1 < n * m ∧ e.1 ≠ p ∧ e.2.1 = e.1 / m ∧ e.2.2.1 = e.1 % m ∧
        (((e.1 / m : ℕ) : ℤ) - ((p / m : ℕ) : ℤ)).natAbs +
          (((e.1 % m : ℕ) : ℤ) - ((p % m : ℕ) : ℤ)).natAbs = 1 ∧
        (e.2.2.2 = 1 ↔ e.1 % m ≠ p % m) ∧
        (e.2.2.2 = 0 ↔ e.1 / m ≠ p / m)) ∧
    (get_sparse_neighbor p n m).length ≤ 4 ∧
    (∀ q, q < n * m →
      (q ∈ (get_sparse_neighbor p n m).map Prod.fst ↔
        p ∈ (get_sparse_neighbor q n m).map Prod.fst)) := by
  have hm0 : 0 < m := hm
  obtain ⟨i, j, hj, rfl⟩ : ∃ i j, j < m ∧ p = i * m + j :=
    ⟨p / m, p % m, Nat.mod_lt _ hm0, by rw [mul_comm]; exact (Nat.div_add_mod p m).symm⟩
  have hi : i < n := cell_lt hj hp
  have hdp : (i * m + j) / m = i := key_div m i j hj
  have hmp : (i * m + j) % m = j := key_mod m i j hj
  refine ⟨?_, ?_, fun q hq => ⟨gsn_symm hp hq, gsn_symm hq hp⟩⟩
  · intro e he
    obtain ⟨h1, h2, h3, h4, h5, h6, h01, hx1, hx0⟩ := gsn_case_facts hi hj e he
    rw [hdp, hmp]
    refine ⟨h1, h2, h5, h6, ?_, ?_, ?_⟩
    · rcases h01 with h0 | hone
      · obtain ⟨hmo, hdd⟩ := hx0 h0
        rw [hmo]
        rcases hdd with ⟨hc, hdv⟩ | ⟨hc, hdv⟩ <;> rw [hdv] <;> omega
      · obtain ⟨hdv, hdd⟩ := hx1 hone
        rw [hdv]
        rcases hdd with ⟨hc, hmo⟩ | ⟨hc, hmo⟩ <;> rw [hmo] <;> omega
    · rcases h01 with h0 | hone
      · obtain ⟨hmo, _⟩ := hx0 h0
        rw [h0, hmo]
        simp
      · obtain ⟨_, hdd⟩ := hx1 hone
        rw [hone]
        rcases hdd with ⟨hc, hmo⟩ | ⟨hc, hmo⟩ <;> rw [hmo] <;> simp <;> omega
    · rcases h01 with h0 | hone
      · obtain ⟨_, hdd⟩ := hx0 h0
        rw [h0]
        rcases hdd with ⟨hc, hdv⟩ | ⟨hc, hdv⟩ <;> rw [hdv] <;> simp <;> omega
      · obtain ⟨hdv, _⟩ := hx1 hone
        rw [hone, hdv]
        simp
  · rw [gsn_eq n m i j hj]
    split_ifs <;> simp

/-- Witness for claim C10 at the concrete grid `n = m = 2`, `p = 0`. -/
theorem claim10_witness : (get_sparse_neighbor 0 2 2).length ≤ 4 :=
  (claim10_sparse_neighbor_invariants 2 2 0 (by norm_num) (by norm_num) (by norm_num)).2.1

/-- Selects the weight of a neighbor entry, mirroring
`weight = wx[k, l] if x else wy[k, l]` in the assembly loop of
`refine_illumination_map_linear`. -/
def nbr_weight (wx wy : ℕ → ℕ → ℝ) (e : ℕ × ℕ × ℕ × ℕ) : ℝ :=
  if e.2.2.2 ≠ 0 then wx e.2.1 e.2.2.1 else wy e.2.1 e.2.2.1

/-- Coordinate-list entries appended for row `p` of the five-point Laplacian
in `refine_illumination_map_linear`: one `(q, -weight)` pair per neighbor,
followed by the accumulated diagonal pair `(p, diag)`. -/
def laplacian_row (wx wy : ℕ → ℕ → ℝ) (n m p : ℕ) : List (ℕ × ℝ) :=
  (get_sparse_neighbor p n m).map (fun e => (e.1, -nbr_weight wx wy e)) ++
    [(p, ((get_sparse_neighbor p n m).map (nbr_weight wx wy)).sum)]

/-- The assembled matrix `F = csr_matrix((data, (row, column)))`: the entry at
`(p, q)` sums every coordinate-list contribution at `(p, q)`. -/
def F_mat (wx wy : ℕ → ℕ → ℝ) (n m : ℕ) : Matrix (Fin (n * m)) (Fin (n * m)) ℝ :=
  Matrix.of fun p q =>
    ((laplacian_row wx wy n m ↑p).map (fun e => if e.1 = (q : ℕ) then e.2 else 0)).sum

/-- The linear-system matrix `A = Id + lambda_ * F` of
`refine_illumination_map_linear`. -/
def A_mat (wx wy : ℕ → ℕ → ℝ) (n m : ℕ) (lam : ℝ) :
    Matrix (Fin (n * m)) (Fin (n * m)) ℝ :=
  1 + lam • F_mat wx wy n m

lemma gsn_key_lt {n m p : ℕ} (hp : p < n * m) :
    ∀ e ∈ get_sparse_neighbor p n m,
      e.1 < n * m ∧ e.1 ≠ p ∧ e.2.1 < n ∧ e.2.2.1 < m := by
  have hm : 0 < m := Nat.pos_of_ne_zero fun h => by subst h; simp at hp
  obtain ⟨i, j, hj, rfl⟩ : ∃ i j, j < m ∧ p = i * m + j :=
    ⟨p / m, p % m, Nat.mod_lt _ hm, by rw [mul_comm]; exact (Nat.div_add_mod p m).symm⟩
  have hi : i < n := cell_lt hj hp
  intro e he
  obtain ⟨h1, h2, h3, h4, -⟩ := gsn_case_facts hi hj e he
  exact ⟨h1, h2, h3, h4⟩

lemma list_sum_neg {α : Type} (l : List α) (f : α → ℝ) :
    (l.map fun e => -f e).sum = -(l.map f).sum := by
  induction l with
  | nil => simp
  | cons x l ih => simp only [List.map_cons, List.sum_cons, ih]; ring

lemma sum_map_nonneg {α : Type} {l : List α} {f : α → ℝ} (h : ∀ e ∈ l, 0 ≤ f e) :
    0 ≤ (l.map f).sum := by
  induction l with
  | nil => simp
  | cons x l ih =>
    simp only [List.map_cons, List.sum_cons]
    have h1 := h x (List.mem_cons_self x l)
    have h2 := ih fun e he => h e (List.mem_cons_of_mem _ he)
    linarith

lemma abs_list_sum_le (l : List ℝ) : |l.sum| ≤ (l.map fun x => |x|).sum := by
  induction l with
  | nil => simp
  | cons x l ih =>
    simp only [List.sum_cons, List.map_cons]
    calc |x + l.sum| ≤ |x| + |l.sum| := abs_add _ _
      _ ≤ |x| + (l.map fun y => |y|).sum := by linarith

lemma list_sum_le {α : Type} (l : List α) (f g : α → ℝ) (h : ∀ e ∈ l, f e ≤ g e) :
    (l.map f).sum ≤ (l.map g).sum := by
  induction l with
  | nil => simp
  | cons x l ih =>
    simp only [List.map_cons, List.sum_cons]
    have h1 := h x (List.mem_cons_self x l)
    have h2 := ih fun e he => h e (List.mem_cons_of_mem _ he)
    linarith

lemma list_sum_congr {α : Type} (l : List α) (f g : α → ℝ) (h : ∀ e ∈ l, f e = g e) :
    (l.map f).sum = (l.map g).sum := by
  induction l with
  | nil => simp
  | cons x l ih =>
    simp only [List.map_cons, List.sum_cons]
    rw [h x (List.mem_cons_self x l), ih fun e he => h e (List.mem_cons_of_mem _ he)]

lemma finset_sum_list_sum {α β : Type} (s : Finset α) (l : List β) (f : α → β → ℝ) :
    ∑ a ∈ s, (l.map (f a)).sum = (l.map fun b => ∑ a ∈ s, f a b).sum := by
  induction l with
  | nil => simp
  | cons b l ih => simp only [List.map_cons, List.sum_cons, Finset.sum_add_distrib, ih]

lemma sum_indicator_fin {N : ℕ} (l : List (ℕ × ℝ)) (hl : ∀ e ∈ l, e.1 < N) :
    ∑ q : Fin N, (l.map fun e => if e.1 = (q : ℕ) then e.2 else 0).sum =
      (l.map Prod.snd).sum := by
  induction l with
  | nil => simp
  | cons x l ih =>
    simp only [List.map_cons, List.sum_cons]
    rw [Finset.sum_add_distrib, ih fun e he => hl e (List.mem_cons_of_mem _ he)]
    congr 1
    have hx : x.1 < N := hl x (List.mem_cons_self _ _)
    rw [Finset.sum_eq_single (⟨x.1, hx⟩ : Fin N)]
    · simp
    · intro b _ hbne
      rw [if_neg]
      intro hcontra
      exact hbne (Fin.ext hcontra.symm)
    · intro hcontra
      exact absurd (Finset.mem_univ _) hcontra

/-- Row-sum invariant of the assembled Laplacian: every row of `F` sums to
zero, because the diagonal accumulates exactly the weights that are negated
on the off-diagonal entries. -/
lemma F_mat_row_sum (wx wy : ℕ → ℕ → ℝ) (n m : ℕ) (p : Fin (n * m)) :
    ∑ q, F_mat wx wy n m p q = 0 := by
  unfold F_mat
  simp only [Matrix.of_apply]
  rw [sum_indicator_fin (laplacian_row wx wy n m ↑p) ?keys]
  case keys =>
    intro e he
    unfold laplacian_row at he
    rw [List.mem_append] at he
    rcases he with he | he
    · rw [List.mem_map] at he
      obtain ⟨a, ha, rfl⟩ := he
      exact (gsn_key_lt p.2 a ha).1
    · rw [List.mem_singleton] at he
      rw [he]
      exact p.2
  unfold laplacian_row
  rw [List.map_append, List.sum_append, List.map_map]
  have hcomp : (Prod.snd ∘ fun e : ℕ × ℕ × ℕ × ℕ => (e.1, -nbr_weight wx wy e)) =
      fun e => -nbr_weight wx wy e := rfl
  rw [hcomp, list_sum_neg]
  simp

/-- Entry-level description of `F`: the neighbor contributions matching
column `q` plus the diagonal contribution when `q = p`. -/
lemma F_mat_apply (wx wy : ℕ → ℕ → ℝ) (n m : ℕ) (p q : Fin (n * m)) :
    F_mat wx wy n m p q =
      ((get_sparse_neighbor ↑p n m).map
        (fun e => if e.1 = (q : ℕ) then -nbr_weight wx wy e else 0)).sum +
      (if (p : ℕ) = (q : ℕ) then
        ((get_sparse_neighbor ↑p n m).map (nbr_weight wx wy)).sum else 0) := by
  unfold F_mat laplacian_row
  simp only [Matrix.of_apply, List.map_append, List.sum_append, List.map_map]
  congr 1
  simp

/-- Strict row diagonal dominance of `A = I + lam • F` for nonnegative
weights and nonnegative `lam`. -/
lemma A_strict_dominance (wx wy : ℕ → ℕ → ℝ) (n m : ℕ) (lam : ℝ) (hlam : 0 ≤ lam)
    (hwx : ∀ i j, i < n → j < m → 0 ≤ wx i j) (hwy : ∀ i j, i < n → j < m → 0 ≤ wy i j)
    (p : Fin (n * m)) :
    ∑ q ∈ Finset.univ.erase p, |A_mat wx wy n m lam p q| <
      |A_mat wx wy n m lam p p| := by
  set l := get_sparse_neighbor ↑p n m with hl
  set w := nbr_weight wx wy with hwdef
  have hw0 : ∀ e ∈ l, 0 ≤ w e := by
    intro e he
    obtain ⟨-, -, h3, h4⟩ := gsn_key_lt p.2 e he
    rw [hwdef]
    unfold nbr_weight
    split_ifs
    · exact hwx _ _ h3 h4
    · exact hwy _ _ h3 h4
  have hS : 0 ≤ (l.map w).sum := sum_map_nonneg hw0
  have hApp : A_mat wx wy n m lam p p = 1 + lam * (l.map w).sum := by
    unfold A_mat
    simp only [Matrix.add_apply, Matrix.one_apply_eq, Matrix.smul_apply, smul_eq_mul]
    rw [F_mat_apply]
    have hz : ((l.map fun e => if e.1 = (p : ℕ) then -w e else 0)).sum = 0 := by
      apply List.sum_eq_zero
      intro x hx
      rw [List.mem_map] at hx
      obtain ⟨e, he, rfl⟩ := hx
      rw [if_neg]
      exact (gsn_key_lt p.2 e he).2.1
    rw [← hl, ← hwdef, hz, if_pos rfl, zero_add]
  have hstep : ∀ q ∈ Finset.univ.erase p, |A_mat wx wy n m lam p q| ≤
      lam * (l.map fun e => if e.1 = (q : ℕ) then w e else 0).sum := by
    intro q hq
    have hqp : q ≠ p := (Finset.mem_erase.mp hq).1
    have hApq : A_mat wx wy n m lam p q =
        lam * (l.map fun e => if e.1 = (q : ℕ) then -w e else 0).sum := by
      unfold A_mat
      simp only [Matrix.add_apply, Matrix.smul_apply, smul_eq_mul]
      rw [Matrix.one_apply_ne (Ne.symm hqp), F_mat_apply]
      have hne : ¬((p : ℕ) = (q : ℕ)) := fun h => hqp (Fin.ext h.symm)
      rw [← hl, ← hwdef, if_neg hne, add_zero, zero_add]
    rw [hApq, abs_mul, abs_of_nonneg hlam]
    apply mul_le_mul_of_nonneg_left ?_ hlam
    calc |(l.map fun e => if e.1 = (q : ℕ) then -w e else 0).sum|
        ≤ ((l.map fun e => if e.1 = (q : ℕ) then -w e else 0).map fun x => |x|).sum :=
          abs_list_sum_le _
      _ = (l.map fun e => |if e.1 = (q : ℕ) then -w e else 0|).sum := by
          rw [List.map_map]; rfl
      _ ≤ (l.map fun e => if e.1 = (q : ℕ) then w e else 0).sum := by
          apply list_sum_le
          intro e he
          split_ifs
          · rw [abs_neg, abs_of_nonneg (hw0 e he)]
          · simp
  have hsum : ∑ q ∈ Finset.univ.erase p, |A_mat wx wy n m lam p q| ≤
      lam * (l.map w).sum := by
    calc ∑ q ∈ Finset.univ.erase p, |A_mat wx wy n m lam p q|
        ≤ ∑ q ∈ Finset.univ.erase p,
            lam * (l.map fun e => if e.1 = (q : ℕ) then w e else 0).sum :=
          Finset.sum_le_sum hstep
      _ = lam * ∑ q ∈ Finset.univ.erase p,
            (l.map fun e => if e.1 = (q : ℕ) then w e else 0).sum := by
          rw [Finset.mul_sum]
      _ = lam * (l.map fun e =>
            ∑ q ∈ Finset.univ.erase p, if e.1 = (q : ℕ) then w e else 0).sum := by
          rw [finset_sum_list_sum]
      _ = lam * (l.map w).sum := by
          congr 1
          apply list_sum_congr
          intro e he
          obtain ⟨h1, h2, -, -⟩ := gsn_key_lt p.2 e he
          rw [Finset.sum_eq_single_of_mem (⟨e.1, h1⟩ : Fin (n * m))]
          · rw [if_pos rfl]
          · rw [Finset.mem_erase]
            exact ⟨fun hcontra => h2 (by rw [← hcontra]), Finset.mem_univ _⟩
          · intro c _ hcne
            rw [if_neg]
            intro hcontra
            exact hcne (Fin.ext hcontra.symm)
  have hdiag : |A_mat wx wy n m lam p p| = 1 + lam * (l.map w).sum := by
    rw [hApp]
    exact abs_of_nonneg (by nlinarith [mul_nonneg hlam hS])
  rw [hdiag]
  have hls : 0 ≤ lam * (l.map w).sum := mul_nonneg hlam hS
  linarith

/-- The determinant of `A = I + lam • F` never vanishes for nonnegative
weights and nonnegative `lam`, by strict diagonal dominance. -/
lemma A_det_ne_zero (wx wy : ℕ → ℕ → ℝ) (n m : ℕ) (lam : ℝ) (hlam : 0 ≤ lam)
    (hwx : ∀ i j, i < n → j < m → 0 ≤ wx i j)
    (hwy : ∀ i j, i < n → j < m → 0 ≤ wy i j) :
    (A_mat wx wy n m lam).det ≠ 0 := by
  apply det_ne_zero_of_sum_row_lt_diag
  intro k
  have h := A_strict_dominance wx wy n m lam hlam hwx hwy k
  simpa [Real.norm_eq_abs] using h

/-- Claim C2: every row `p` of the assembled sparse matrix `F` (before the
identity term is added) sums to zero, and the diagonal entry equals the
negated sum of the off-diagonal entries of that row. -/
theorem claim2_laplacian_row_sum (wx wy : ℕ → ℕ → ℝ) (n m : ℕ) (p : Fin (n * m)) :
    ∑ q, F_mat wx wy n m p q = 0 ∧
      F_mat wx wy n m p p = -∑ q ∈ Finset.univ.erase p, F_mat wx wy n m p q := by
  have h := F_mat_row_sum wx wy n m p
  refine ⟨h, ?_⟩
  have h2 : F_mat wx wy n m p p + ∑ q ∈ Finset.univ.erase p, F_mat wx wy n m p q =
      ∑ q, F_mat wx wy n m p q := Finset.add_sum_erase _ _ (Finset.mem_univ p)
  rw [h] at h2
  linarith

/-- Counterexample to claim C1 as stated: the assembled `F` is not symmetric.
On a `1 × 2` grid with horizontal weights `wx[0,0] = 1`, `wx[0,1] = 2`, the
entry `F[0,1] = -wx[0,1] = -2` differs from `F[1,0] = -wx[0,0] = -1`, because
each off-diagonal entry takes the weight at the coordinates of its column
(neighbor) index. -/
theorem claim1_counterexample :
    F_mat (fun _ j => (j : ℝ) + 1) (fun _ _ => 1) 1 2 ⟨0, by norm_num⟩ ⟨1, by norm_num⟩ ≠
      F_mat (fun _ j => (j : ℝ) + 1) (fun _ _ => 1) 1 2 ⟨1, by norm_num⟩ ⟨0, by norm_num⟩ := by
  unfold F_mat laplacian_row nbr_weight get_sparse_neighbor
  norm_num

/-- Claim C1 (corrected): `F` need not be symmetric, but for strictly
positive weight maps and `lam > 0` the matrix `A = I + lam • F` is strictly
row diagonally dominant, its determinant is nonzero, and the linear system
`A x = b` has a unique solution for every right-hand side. -/
theorem claim1_linear_system_unique_solution (n m : ℕ) (wx wy : ℕ → ℕ → ℝ) (lam : ℝ)
    (hnm : 1 ≤ n * m)
    (hwx : ∀ i j, i < n → j < m → 0 < wx i j)
    (hwy : ∀ i j, i < n → j < m → 0 < wy i j)
    (hlam : 0 < lam) :
    (∀ p : Fin (n * m), ∑ q ∈ Finset.univ.erase p, |A_mat wx wy n m lam p q| <
      |A_mat wx wy n m lam p p|) ∧
    (A_mat wx wy n m lam).det ≠ 0 ∧
    ∀ b : Fin (n * m) → ℝ, ∃! x, (A_mat wx wy n m lam).mulVec x = b := by
  have hwx2 : ∀ i j, i < n → j < m → 0 ≤ wx i j := fun i j hi hj => (hwx i j hi hj).le
  have hwy2 : ∀ i j, i < n → j < m → 0 ≤ wy i j := fun i j hi hj => (hwy i j hi hj).le
  have hdet := A_det_ne_zero wx wy n m lam hlam.le hwx2 hwy2
  have hu : IsUnit (A_mat wx wy n m lam).det := isUnit_iff_ne_zero.mpr hdet
  refine ⟨fun p => A_strict_dominance wx wy n m lam hlam.le hwx2 hwy2 p, hdet, fun b => ?_⟩
  refine ⟨(A_mat wx wy n m lam)⁻¹.mulVec b, ?_, ?_⟩
  · show (A_mat wx wy n m lam).mulVec ((A_mat wx wy n m lam)⁻¹.mulVec b) = b
    rw [Matrix.mulVec_mulVec, Matrix.mul_nonsing_inv _ hu, Matrix.one_mulVec]
  · intro y hy
    have h := congrArg (fun v => (A_mat wx wy n m lam)⁻¹.mulVec v) hy
    simpa [Matrix.mulVec_mulVec, Matrix.nonsing_inv_mul _ hu, Matrix.one_mulVec] using h

/-- Witness for claim C1 on a `1 × 1` grid with unit weights and `lam = 1`. -/
theorem claim1_witness :
    ∃! x, (A_mat (fun _ _ => 1) (fun _ _ => 1) 1 1 1).mulVec x = fun _ => 1 :=
  (claim1_linear_system_unique_solution 1 1 (fun _ _ => 1) (fun _ _ => 1) 1
    (by norm_num) (fun _ _ _ _ => by norm_num) (fun _ _ _ _ => by norm_num)
    (by norm_num)).2.2 (fun _ => 1)

/-- Reflect-101 border indexing (OpenCV BORDER_DEFAULT): a negative index
`-t` maps back to `t`, and an index past the end maps to its mirror image
about the last valid index, without repeating the border pixel. -/
def refl101 (len : ℕ) (t : ℤ) : ℤ :=
  if t < 0 then -t else if (len : ℤ) ≤ t then 2 * ((len : ℤ) - 1) - t else t

/-- Embeds `cv2.Sobel(L, cv2.CV_64F, int(x == 1), int(x == 0), ksize=1)`
from `compute_smoothness_weights`: the three-tap derivative kernel
`(-1, 0, 1)` along the chosen axis with reflect-101 border handling.  The
call sites only use `x = 1` (horizontal) and `x = 0` (vertical). -/
def sobel1 (L : ℕ → ℕ → ℝ) (n m : ℕ) (x : ℕ) (i j : ℕ) : ℝ :=
  if x = 1 then
    L i (refl101 m ((j : ℤ) + 1)).toNat - L i (refl101 m ((j : ℤ) - 1)).toNat
  else
    L (refl101 n ((i : ℤ) + 1)).toNat j - L (refl101 n ((i : ℤ) - 1)).toNat j

/-- Reads a grid entry with the constant (zero fill) boundary of
`scipy.ndimage.convolve(..., mode='constant')`. -/
def getZ (g : ℕ → ℕ → ℝ) (n m : ℕ) (a b : ℤ) : ℝ :=
  if 0 ≤ a ∧ a < (n : ℤ) ∧ 0 ≤ b ∧ b < (m : ℤ) then g a.toNat b.toNat else 0

/-- Embeds `scipy.ndimage.convolve(input, kernel, mode='constant')` for an
odd `ks × ks` kernel: true convolution centered at `ks / 2`, with zero fill
outside the `n × m` grid. -/
def convolve (g : ℕ → ℕ → ℝ) (n m : ℕ) (K : ℕ → ℕ → ℝ) (ks : ℕ) (i j : ℕ) : ℝ :=
  ∑ a ∈ Finset.range ks, ∑ b ∈ Finset.range ks,
    K a b * getZ g n m ((i : ℤ) + ((ks / 2 : ℕ) : ℤ) - (a : ℤ))
      ((j : ℤ) + ((ks / 2 : ℕ) : ℤ) - (b : ℤ))

/-- Embeds `compute_smoothness_weights(L, x, kernel, eps)` from `main.py`:
`Txp = convolve(ones_like(L), kernel) / (|convolve(Lp, kernel)| + eps)` and
`Wxp = Txp / (|Lp| + eps)` with `Lp` the directional Sobel derivative. -/
noncomputable def compute_smoothness_weights (L : ℕ → ℕ → ℝ) (n m : ℕ) (x : ℕ)
    (kernel : ℕ → ℕ → ℝ) (ks : ℕ) (eps : ℝ) : ℕ → ℕ → ℝ :=
  fun i j =>
    convolve (fun _ _ => 1) n m kernel ks i j /
        (|convolve (sobel1 L n m x) n m kernel ks i j| + eps) /
      (|sobel1 L n m x i j| + eps)

/-- Row-major flattening `L.copy().flatten()` of the `n × m` grid. -/
def flatten (L : ℕ → ℕ → ℝ) (n m : ℕ) : Fin (n * m) → ℝ :=
  fun p => L ((p : ℕ) / m) ((p : ℕ) % m)

/-- Modelled from the spec: `scipy.sparse.linalg.spsolve` is an external
collaborator; per the LinearSystemSolver contract it returns the solution of
`A x = b`, idealised here as multiplication by the matrix inverse. -/
noncomputable def solve_linear_system {N : ℕ} (A : Matrix (Fin N) (Fin N) ℝ)
    (b : Fin N → ℝ) : Fin N → ℝ :=
  A⁻¹.mulVec b

/-- Embeds `refine_illumination_map_linear(L, gamma, lambda_, kernel, eps)`
from `main.py`: smoothness weights, Laplacian assembly, linear solve,
reshape, then `np.clip(x, eps, 1) ** gamma` with
`np.clip(v, eps, 1) = min(max(v, eps), 1)`. -/
noncomputable def refine_illumination_map_linear (L : ℕ → ℕ → ℝ) (n m : ℕ)
    (gamma lam : ℝ) (kernel : ℕ → ℕ → ℝ) (ks : ℕ) (eps : ℝ) : ℕ → ℕ → ℝ :=
  fun i j =>
    let wx := compute_smoothness_weights L n m 1 kernel ks eps
    let wy := compute_smoothness_weights L n m 0 kernel ks eps
    let L_1d := flatten L n m
    let L_refined := solve_linear_system (A_mat wx wy n m lam) L_1d
    let v := if h : i * m + j < n * m then L_refined ⟨i * m + j, h⟩ else 0
    (min (max v eps) 1) ^ gamma

lemma clip_rpow_bounds (v eps gamma : ℝ) (heps0 : 0 < eps) (heps1 : eps ≤ 1)
    (hgamma : 0 < gamma) :
    eps ^ gamma ≤ (min (max v eps) 1) ^ gamma ∧ (min (max v eps) 1) ^ gamma ≤ 1 := by
  have h1 : eps ≤ min (max v eps) 1 := le_min (le_max_right v eps) heps1
  have h2 : min (max v eps) 1 ≤ 1 := min_le_right _ _
  have h0 : 0 ≤ min (max v eps) 1 := le_trans heps0.le h1
  exact ⟨Real.rpow_le_rpow heps0.le h1 hgamma.le, Real.rpow_le_one h0 h2 hgamma.le⟩

/-- Claim C3 (corrected): for `0 < eps ≤ 1` and `gamma > 0` every element of
the returned grid lies in `[eps ^ gamma, 1]`; the interval `[eps, 1]` claimed
by the spec is only guaranteed when additionally `gamma ≤ 1`. -/
theorem claim3_output_range (L : ℕ → ℕ → ℝ) (n m : ℕ) (gamma lam : ℝ)
    (kernel : ℕ → ℕ → ℝ) (ks : ℕ) (eps : ℝ)
    (heps0 : 0 < eps) (heps1 : eps ≤ 1) (hgamma : 0 < gamma) (i j : ℕ) :
    eps ^ gamma ≤ refine_illumination_map_linear L n m gamma lam kernel ks eps i j ∧
      refine_illumination_map_linear L n m gamma lam kernel ks eps i j ≤ 1 := by
  unfold refine_illumination_map_linear
  exact clip_rpow_bounds _ eps gamma heps0 heps1 hgamma

/-- Witness for claim C3 at a concrete input. -/
theorem claim3_witness :
    (1/2 : ℝ) ^ (1 : ℝ) ≤
        refine_illumination_map_linear (fun _ _ => 0) 1 1 1 1 (fun _ _ => 0) 1 (1/2) 0 0 ∧
      refine_illumination_map_linear (fun _ _ => 0) 1 1 1 1 (fun _ _ => 0) 1 (1/2) 0 0 ≤ 1 :=
  claim3_output_range (fun _ _ => 0) 1 1 1 1 (fun _ _ => 0) 1 (1/2)
    (by norm_num) (by norm_num) (by norm_num) 0 0

/-- Scenario input of claim C5: the constant `0.5` luminance map. -/
noncomputable def L4 : ℕ → ℕ → ℝ := fun _ _ => 1 / 2

/-- Scenario kernel of claim C5: the `3 × 3` spatial kernel with center
entry `1` and all other entries `0`. -/
def kernel3 : ℕ → ℕ → ℝ := fun a b => if a = 1 ∧ b = 1 then 1 else 0

/-- Scenario horizontal smoothness weights (default `eps = 1e-3`). -/
noncomputable def wx_scenario : ℕ → ℕ → ℝ :=
  compute_smoothness_weights L4 4 4 1 kernel3 3 (1 / 1000)

/-- Scenario vertical smoothness weights (default `eps = 1e-3`). -/
noncomputable def wy_scenario : ℕ → ℕ → ℝ :=
  compute_smoothness_weights L4 4 4 0 kernel3 3 (1 / 1000)

lemma sobel1_L4 (x i j : ℕ) : sobel1 L4 4 4 x i j = 0 := by
  unfold sobel1 L4
  split_ifs <;> ring

lemma getZ_zero {g : ℕ → ℕ → ℝ} {n m : ℕ} (hg : ∀ a b, g a b = 0) (a b : ℤ) :
    getZ g n m a b = 0 := by
  unfold getZ
  split_ifs
  · exact hg _ _
  · rfl

lemma convolve_zero {g : ℕ → ℕ → ℝ} (n m : ℕ) (K : ℕ → ℕ → ℝ) (ks : ℕ)
    (hg : ∀ a b, g a b = 0) (i j : ℕ) : convolve g n m K ks i j = 0 := by
  unfold convolve
  apply Finset.sum_eq_zero
  intro a _
  apply Finset.sum_eq_zero
  intro b _
  rw [getZ_zero hg, mul_zero]

lemma convolve_ones_kernel3 (i j : ℕ) (hi : i < 4) (hj : j < 4) :
    convolve (fun _ _ => 1) 4 4 kernel3 3 i j = 1 := by
  unfold convolve kernel3
  simp only [Finset.sum_range_succ, Finset.sum_range_zero]
  norm_num
  unfold getZ
  rw [if_pos ⟨by omega, by omega, by omega, by omega⟩]

lemma weights_scenario (x i j : ℕ) (hi : i < 4) (hj : j < 4) :
    compute_smoothness_weights L4 4 4 x kernel3 3 (1 / 1000) i j = 1000000 := by
  unfold compute_smoothness_weights
  rw [convolve_zero 4 4 kernel3 3 (fun a b => sobel1_L4 x a b) i j]
  rw [convolve_ones_kernel3 i j hi hj, sobel1_L4]
  norm_num

lemma A_mulVec_const (wx wy : ℕ → ℕ → ℝ) (n m : ℕ) (lam c : ℝ) :
    (A_mat wx wy n m lam).mulVec (fun _ => c) = fun _ => c := by
  funext p
  show ∑ q, A_mat wx wy n m lam p q * c = c
  rw [← Finset.sum_mul]
  have hsum : ∑ q, A_mat wx wy n m lam p q = 1 := by
    unfold A_mat
    simp only [Matrix.add_apply, Matrix.smul_apply, smul_eq_mul]
    rw [Finset.sum_add_distrib, ← Finset.mul_sum, F_mat_row_sum, mul_zero, add_zero]
    simp [Matrix.one_apply]
  rw [hsum, one_mul]

lemma solve_A_const (wx wy : ℕ → ℕ → ℝ) (n m : ℕ) (lam c : ℝ)
    (hdet : (A_mat wx wy n m lam).det ≠ 0) :
    solve_linear_system (A_mat wx wy n m lam) (fun _ => c) = fun _ => c := by
  unfold solve_linear_system
  have hu : IsUnit (A_mat wx wy n m lam).det := isUnit_iff_ne_zero.mpr hdet
  conv_lhs => rw [← A_mulVec_const wx wy n m lam c]
  rw [Matrix.mulVec_mulVec, Matrix.nonsing_inv_mul _ hu, Matrix.one_mulVec]

lemma det_scenario : (A_mat wx_scenario wy_scenario 4 4 (1/5)).det ≠ 0 := by
  apply A_det_ne_zero
  · norm_num
  · intro i j hi hj
    unfold wx_scenario
    rw [weights_scenario 1 i j hi hj]
    norm_num
  · intro i j hi hj
    unfold wy_scenario
    rw [weights_scenario 0 i j hi hj]
    norm_num

lemma flatten_L4 : flatten L4 4 4 = fun _ => (1/2 : ℝ) := rfl

lemma refine_scenario (gamma : ℝ) (i j : ℕ) (hi : i < 4) (hj : j < 4) :
    refine_illumination_map_linear L4 4 4 gamma (1/5) kernel3 3 (1/1000) i j =
      (1/2 : ℝ) ^ gamma := by
  have hgoal : refine_illumination_map_linear L4 4 4 gamma (1/5) kernel3 3 (1/1000) i j =
      (min (max (if h : i * 4 + j < 4 * 4 then
        solve_linear_system (A_mat wx_scenario wy_scenario 4 4 (1/5)) (flatten L4 4 4)
          ⟨i * 4 + j, h⟩ else 0) (1/1000)) 1) ^ gamma := rfl
  rw [hgoal, flatten_L4,
    solve_A_const wx_scenario wy_scenario 4 4 (1/5) (1/2) det_scenario,
    dif_pos (show i * 4 + j < 4 * 4 by omega)]
  rw [max_eq_left (by norm_num : (1/1000 : ℝ) ≤ 1/2),
    min_eq_left (by norm_num : (1/2 : ℝ) ≤ 1)]

/-- Claim C5 (corrected): on the constant `0.5` map of shape `4 × 4` with the
identity-peaked `3 × 3` kernel, `gamma = 0.6`, `lambda = 0.2`, all directional
derivatives are zero, the solved refined map is the constant `0.5`, and the
output is the constant `0.5 ^ 0.6`; however the smoothness weights are
`1 / eps ^ 2 = 10 ^ 6` everywhere on the grid, not `1 / eps`. -/
theorem claim5_constant_scenario :
    (∀ x i j, sobel1 L4 4 4 x i j = 0) ∧
    (∀ i j, i < 4 → j < 4 → wx_scenario i j = 1000000 ∧ wy_scenario i j = 1000000) ∧
    (∀ p : Fin (4 * 4),
      solve_linear_system (A_mat wx_scenario wy_scenario 4 4 (1/5))
        (flatten L4 4 4) p = 1/2) ∧
    (∀ i j, i < 4 → j < 4 →
      refine_illumination_map_linear L4 4 4 (3/5) (1/5) kernel3 3 (1/1000) i j =
        (1/2 : ℝ) ^ ((3 : ℝ)/5)) := by
  refine ⟨sobel1_L4,
    fun i j hi hj => ⟨weights_scenario 1 i j hi hj, weights_scenario 0 i j hi hj⟩,
    ?_, fun i j hi hj => refine_scenario ((3 : ℝ)/5) i j hi hj⟩
  intro p
  rw [flatten_L4]
  exact congrFun (solve_A_const wx_scenario wy_scenario 4 4 (1/5) (1/2) det_scenario) p

/-- Counterexample to claim C5 as stated: the smoothness weights in the
scenario equal `10 ^ 6 = 1 / eps ^ 2`, not `1 / eps = 1000`. -/
theorem claim5_counterexample : wx_scenario 0 0 ≠ 1000 := by
  unfold wx_scenario
  rw [weights_scenario 1 0 0 (by norm_num) (by norm_num)]
  norm_num

/-- Witness for claim C5 at concrete grid positions. -/
theorem claim5_witness :
    sobel1 L4 4 4 1 0 0 = 0 ∧
      refine_illumination_map_linear L4 4 4 (3/5) (1/5) kernel3 3 (1/1000) 0 0 =
        (1/2 : ℝ) ^ ((3 : ℝ)/5) :=
  ⟨claim5_constant_scenario.1 1 0 0,
    claim5_constant_scenario.2.2.2 0 0 (by norm_num) (by norm_num)⟩

/-- Counterexample to claim C3 as stated: with `gamma = 10` and
`eps = 1/1000`, the output at the constant `0.5` scenario input equals
`0.5 ^ 10 = 1/1024 < eps`, which lies outside `[eps, 1]`. -/
theorem claim3_counterexample :
    refine_illumination_map_linear L4 4 4 10 (1/5) kernel3 3 (1/1000) 0 0 <
      1/1000 := by
  rw [refine_scenario 10 0 0 (by norm_num) (by norm_num)]
  rw [show ((10 : ℝ)) = ((10 : ℕ) : ℝ) by norm_num, Real.rpow_natCast]
  norm_num

/-- Heap of numpy arrays: an address maps to the 2-D array stored there. -/
def Store : Type := ℕ → ℕ → ℕ → ℝ

/-- Writing a (fresh or existing) array into the heap at address `a`. -/
def store_write (s : Store) (a : ℕ) (v : ℕ → ℕ → ℝ) : Store :=
  fun b => if b = a then v else s b

/-- Embeds the body of `refine_illumination_map_linear` at the level of array
allocations, one step per python statement: `wx`, `wy`, the flattened copy
`L_1d = L.copy().flatten()`, the solved and reshaped `L_refined`, and the
clipped gamma-corrected result are each fresh arrays stored at addresses
`a1` .. `a5`; every read of the input goes through the heap at `addrL` and no
statement of the body writes to `addrL`. -/
noncomputable def refine_body (s : Store) (addrL a1 a2 a3 a4 a5 : ℕ) (n m : ℕ)
    (gamma lam : ℝ) (kernel : ℕ → ℕ → ℝ) (ks : ℕ) (eps : ℝ) : Store :=
  let s1 := store_write s a1 (compute_smoothness_weights (s addrL) n m 1 kernel ks eps)
  let s2 := store_write s1 a2 (compute_smoothness_weights (s1 addrL) n m 0 kernel ks eps)
  let s3 := store_write s2 a3 (fun p _ => s2 addrL (p / m) (p % m))
  let s4 := store_write s3 a4 (fun i j =>
    if h : i * m + j < n * m then
      solve_linear_system (A_mat (s3 a1) (s3 a2) n m lam)
        (fun p : Fin (n * m) => s3 a3 (p : ℕ) 0) ⟨i * m + j, h⟩
    else 0)
  store_write s4 a5 (fun i j => (min (max (s4 a4 i j) eps) 1) ^ gamma)

/-- Claim C9: when the five arrays created by the body live at addresses
distinct from the input address, the input array is unchanged by the call:
the pipeline works on a flattened copy and never mutates its input. -/
theorem claim9_no_input_mutation (s : Store) (addrL a1 a2 a3 a4 a5 : ℕ) (n m : ℕ)
    (gamma lam : ℝ) (kernel : ℕ → ℕ → ℝ) (ks : ℕ) (eps : ℝ)
    (h1 : a1 ≠ addrL) (h2 : a2 ≠ addrL) (h3 : a3 ≠ addrL) (h4 : a4 ≠ addrL)
    (h5 : a5 ≠ addrL) :
    refine_body s addrL a1 a2 a3 a4 a5 n m gamma lam kernel ks eps addrL = s addrL := by
  unfold refine_body store_write
  simp [Ne.symm h1, Ne.symm h2, Ne.symm h3, Ne.symm h4, Ne.symm h5]

/-- Witness for claim C9 at a concrete heap and concrete fresh addresses. -/
theorem claim9_witness :
    refine_body (fun _ _ _ => (0 : ℝ)) 0 1 2 3 4 5 1 1 1 1 (fun _ _ => 0) 1 1 0 =
      (fun _ _ _ => (0 : ℝ)) 0 :=
  claim9_no_input_mutation (fun _ _ _ => (0 : ℝ)) 0 1 2 3 4 5 1 1 1 1
    (fun _ _ => 0) 1 1 (by norm_num) (by norm_num) (by norm_num) (by norm_num)
    (by norm_num)

/-- Embeds `create_spacial_affinity_kernel(spatial_sigma, size)` from
`main.py`: entry `(i, j)` is
`exp(-0.5 * euclidean((i,j),(size//2,size//2))^2 / spatial_sigma^2)`. -/
noncomputable def create_spacial_affinity_kernel (spatial_sigma : ℝ) (size : ℕ) :
    ℕ → ℕ → ℝ :=
  fun i j =>
    Real.exp (-(1/2) *
      Real.sqrt (((i : ℝ) - ((size / 2 : ℕ) : ℝ)) ^ 2 +
        ((j : ℝ) - ((size / 2 : ℕ) : ℝ)) ^ 2) ^ 2 / spatial_sigma ^ 2)

/-- Claim C6: for odd `size` and `sigma > 0` the kernel is centrally
symmetric, `kernel[i][j] = kernel[size-1-i][size-1-j]`, and its center entry
equals `1`. -/
theorem claim6_kernel_symmetry (sigma : ℝ) (size i j : ℕ) (hs : 0 < sigma)
    (hodd : size % 2 = 1) (hi : i < size) (hj : j < size) :
    create_spacial_affinity_kernel sigma size i j =
        create_spacial_affinity_kernel sigma size (size - 1 - i) (size - 1 - j) ∧
      create_spacial_affinity_kernel sigma size (size / 2) (size / 2) = 1 := by
  have hsz : size = 2 * (size / 2) + 1 := by omega
  constructor
  · unfold create_spacial_affinity_kernel
    have hci : ((size - 1 - i : ℕ) : ℝ) - ((size / 2 : ℕ) : ℝ) =
        -(((i : ℕ) : ℝ) - ((size / 2 : ℕ) : ℝ)) := by
      have h1 : size - 1 - i = 2 * (size / 2) - i := by omega
      have h2 : i ≤ 2 * (size / 2) := by omega
      rw [h1, Nat.cast_sub h2]
      push_cast
      ring
    have hcj : ((size - 1 - j : ℕ) : ℝ) - ((size / 2 : ℕ) : ℝ) =
        -(((j : ℕ) : ℝ) - ((size / 2 : ℕ) : ℝ)) := by
      have h1 : size - 1 - j = 2 * (size / 2) - j := by omega
      have h2 : j ≤ 2 * (size / 2) := by omega
      rw [h1, Nat.cast_sub h2]
      push_cast
      ring
    rw [hci, hcj, neg_sq, neg_sq]
  · unfold create_spacial_affinity_kernel
    rw [sub_self]
    norm_num

/-- Witness for claim C6 at `sigma = 1`, `size = 3`, `(i, j) = (0, 1)`. -/
theorem claim6_witness : create_spacial_affinity_kernel 1 3 1 1 = 1 :=
  (claim6_kernel_symmetry 1 3 0 1 (by norm_num) (by norm_num) (by norm_num)
    (by norm_num)).2

/-- Counterexample to claim C8 as stated: calling the kernel constructor with
the invalid parameters `sigma = -1` (non-positive) and `size = 2` (even)
raises no error and produces an ordinary numeric grid, whose entry at the
center `(1, 1)` equals `1`. -/
theorem claim8_counterexample : create_spacial_affinity_kernel (-1) 2 1 1 = 1 := by
  unfold create_spacial_affinity_kernel
  norm_num

/-- Claim C8 (corrected): the code performs no parameter validation at all:
non-positive sigma, even kernel sizes and non-positive gamma are silently
accepted and ordinary numeric outputs are produced.  In particular sigma
enters the kernel only through its square, so negating sigma leaves every
kernel entry unchanged rather than triggering any fail-fast error. -/
theorem claim8_no_validation (sigma : ℝ) (size i j : ℕ) :
    create_spacial_affinity_kernel (-sigma) size i j =
      create_spacial_affinity_kernel sigma size i j := by
  unfold create_spacial_affinity_kernel
  rw [neg_sq]

/-- Tensor with a channel dimension and two spatial dimensions, modelling a
`torch.Tensor` of shape `(c, h, w)`. -/
structure Tensor3 where
  c : ℕ
  h : ℕ
  w : ℕ
  data : ℕ → ℕ → ℕ → ℝ

/-- Embeds `Standard_WLSLoss.forward(gray)` from `WLSLoss/wlsloss.py`:
`gray_log = log(gray + epsilon)`, horizontal and vertical log differences by
slicing (one column, resp. one row, shorter), and the weight maps
`ax = 1 / (epsilon + |xlog_diff| ^ alpha)`,
`ay = 1 / (epsilon + |ylog_diff| ^ alpha)`. -/
noncomputable def Standard_WLSLoss_forward (epsilon alpha : ℝ) (gray : Tensor3) :
    Tensor3 × Tensor3 :=
  let gray_log : ℕ → ℕ → ℕ → ℝ := fun k i j => Real.log (gray.data k i j + epsilon)
  let xlog_diff : ℕ → ℕ → ℕ → ℝ := fun k i j => gray_log k i j - gray_log k i (j + 1)
  let ylog_diff : ℕ → ℕ → ℕ → ℝ := fun k i j => gray_log k i j - gray_log k (i + 1) j
  let ax : ℕ → ℕ → ℕ → ℝ := fun k i j => 1 / (epsilon + |xlog_diff k i j| ^ alpha)
  let ay : ℕ → ℕ → ℕ → ℝ := fun k i j => 1 / (epsilon + |ylog_diff k i j| ^ alpha)
  (⟨gray.c, gray.h, gray.w - 1, ax⟩, ⟨gray.c, gray.h - 1, gray.w, ay⟩)

/-- Claim C4: each horizontal weight equals
`1 / (epsilon + |log(G_k + epsilon) - log(G_{k+1} + epsilon)| ^ alpha)` over
horizontally adjacent entries, analogously for the vertical map over
vertically adjacent entries, and every weight is strictly positive (hence
finite in the real idealisation). -/
theorem claim4_log_gradient_weights (epsilon alpha : ℝ) (G : Tensor3)
    (heps : 0 < epsilon) (hG : ∀ k i j, 0 ≤ G.data k i j) (k i j : ℕ) :
    ((Standard_WLSLoss_forward epsilon alpha G).1.data k i j =
        1 / (epsilon +
          |Real.log (G.data k i j + epsilon) -
            Real.log (G.data k i (j + 1) + epsilon)| ^ alpha) ∧
      0 < (Standard_WLSLoss_forward epsilon alpha G).1.data k i j) ∧
    ((Standard_WLSLoss_forward epsilon alpha G).2.data k i j =
        1 / (epsilon +
          |Real.log (G.data k i j + epsilon) -
            Real.log (G.data k (i + 1) j + epsilon)| ^ alpha) ∧
      0 < (Standard_WLSLoss_forward epsilon alpha G).2.data k i j) := by
  have hx : 0 ≤ |Real.log (G.data k i j + epsilon) -
      Real.log (G.data k i (j + 1) + epsilon)| ^ alpha :=
    Real.rpow_nonneg (abs_nonneg _) alpha
  have hy : 0 ≤ |Real.log (G.data k i j + epsilon) -
      Real.log (G.data k (i + 1) j + epsilon)| ^ alpha :=
    Real.rpow_nonneg (abs_nonneg _) alpha
  refine ⟨⟨rfl, ?_⟩, ⟨rfl, ?_⟩⟩
  · show 0 < 1 / (epsilon + |Real.log (G.data k i j + epsilon) -
      Real.log (G.data k i (j + 1) + epsilon)| ^ alpha)
    positivity
  · show 0 < 1 / (epsilon + |Real.log (G.data k i j + epsilon) -
      Real.log (G.data k (i + 1) j + epsilon)| ^ alpha)
    positivity

/-- Witness for claim C4 at a concrete zero tensor. -/
theorem claim4_witness :
    0 < (Standard_WLSLoss_forward 1 1 ⟨1, 1, 1, fun _ _ _ => 0⟩).1.data 0 0 0 :=
  (claim4_log_gradient_weights 1 1 ⟨1, 1, 1, fun _ _ _ => 0⟩ (by norm_num)
    (fun _ _ _ => le_refl 0) 0 0 0).1.2

/-- Claim C7: on a 3-channel tensor of spatial shape `h × w`, the horizontal
weight map has spatial shape `h × (w - 1)` (one column narrower) and the
vertical weight map has spatial shape `(h - 1) × w` (one row shorter); no
padding is applied. -/
theorem claim7_forward_shapes (epsilon alpha : ℝ) (G : Tensor3) (hc : G.c = 3) :
    ((Standard_WLSLoss_forward epsilon alpha G).1.c = 3 ∧
      (Standard_WLSLoss_forward epsilon alpha G).1.h = G.h ∧
      (Standard_WLSLoss_forward epsilon alpha G).1.w = G.w - 1) ∧
    ((Standard_WLSLoss_forward epsilon alpha G).2.c = 3 ∧
      (Standard_WLSLoss_forward epsilon alpha G).2.h = G.h - 1 ∧
      (Standard_WLSLoss_forward epsilon alpha G).2.w = G.w) :=
  ⟨⟨hc, rfl, rfl⟩, ⟨hc, rfl, rfl⟩⟩

/-- Witness for claim C7 at a concrete `3 × 2 × 2` tensor. -/
theorem claim7_witness :
    ((Standard_WLSLoss_forward 1 1 ⟨3, 2, 2, fun _ _ _ => 0⟩).1.c = 3 ∧
      (Standard_WLSLoss_forward 1 1 ⟨3, 2, 2, fun _ _ _ => 0⟩).1.h = 2 ∧
      (Standard_WLSLoss_forward 1 1 ⟨3, 2, 2, fun _ _ _ => 0⟩).1.w = 2 - 1) ∧
    ((Standard_WLSLoss_forward 1 1 ⟨3, 2, 2, fun _ _ _ => 0⟩).2.c = 3 ∧
      (Standard_WLSLoss_forward 1 1 ⟨3, 2, 2, fun _ _ _ => 0⟩).2.h = 2 - 1 ∧
      (Standard_WLSLoss_forward 1 1 ⟨3, 2, 2, fun _ _ _ => 0⟩).2.w = 2) :=
  claim7_forward_shapes 1 1 ⟨3, 2, 2, fun _ _ _ => 0⟩ rfl
